import Mathlib

/-!
# Verification of the go-pxe PXE boot server (DHCP + TFTP)

Shallow embedding of the protocol logic of the `go-pxe` repository:
the DHCP packet codec (`parsePacket` / `serializePacket`), the lease
allocator (`allocateIP`), the DHCP responder (`sendOffer` / `sendACK` /
`sendReply`, modelled by `handleMessage` / `mkReply`) and the TFTP read
transfer engine (`Server.handleRead`, modelled by `handleRead` /
`transferLoop`).

Modelling conventions:
* Go bytes are `ℕ` (values `< 256` where it matters, tracked by explicit
  hypotheses); Go `uint16`/`uint32` arithmetic is `ℕ` with explicit
  `% 65536` / `% 4294967296`.
* Go slices of bytes are `List ℕ`; strings are `List Char`.
* Network I/O is abstracted: incoming datagrams are parameters, each
  `conn.Read` of the TFTP retry loop consumes one element of a response
  oracle `rs : ℕ → Option (List ℕ)` (`none` models a read error /
  3-second timeout, `some buf` models the bytes that were read),
  and the packets written by the code are returned as values/traces.
* Loops are embedded with explicit fuel (structural recursion), so that
  every definition is executable by the kernel; the fuel needed is
  always derivable from the input sizes.
-/

set_option maxRecDepth 10000

namespace GoPxe

/-! ## Lease allocator (`dhcp.go`, `Server.allocateIP`)

The Go server state is `leases map[string]lease` together with the
cursor `nextIP net.IP`.  The map key is `mac.String()`, which is
injective on the 6-byte hardware addresses that occur (the parser always
produces 6-byte `CHAddr` fields), so the model keys leases directly by
the hardware-address byte list.  IPv4 addresses are modelled as their
big-endian `uint32` value: `allocateIP` advances the cursor with
`binary.BigEndian.Uint32` / `val++` / `PutUint32`, i.e. `+1 % 2^32`. -/

/-- One lease table: association list from hardware address to IPv4
value, in insertion order (Go map; keys are unique by construction). -/
structure DhcpState where
  leases : List (List ℕ × ℕ)
  nextIP : ℕ
deriving DecidableEq

/-- Go map lookup `s.leases[macStr]`. -/
def lookupLease : List (List ℕ × ℕ) → List ℕ → Option ℕ
  | [], _ => none
  | (k, v) :: t, mac => if k = mac then some v else lookupLease t mac

/-- `Server.allocateIP` (dhcp.go): return the existing lease if present,
otherwise hand out the cursor value, record the lease and advance the
cursor by one (`uint32` increment, hence `% 2^32`).  The configured
`RangeEnd` is never consulted and there is no failure outcome: the
return type mirrors the Go signature `net.IP` (no error). -/
def allocateIP (s : DhcpState) (mac : List ℕ) : ℕ × DhcpState :=
  match lookupLease s.leases mac with
  | some ip => (ip, s)
  | none =>
      (s.nextIP,
       { leases := s.leases ++ [(mac, s.nextIP)],
         nextIP := (s.nextIP + 1) % 4294967296 })

/-- Run a sequence of allocations, keeping only the final state. -/
def allocRun (s : DhcpState) : List (List ℕ) → DhcpState
  | [] => s
  | m :: ms => allocRun (allocateIP s m).2 ms

/-- Run a sequence of allocations, returning the addresses in order. -/
def allocRunList (s : DhcpState) : List (List ℕ) → List ℕ
  | [] => []
  | m :: ms => (allocateIP s m).1 :: allocRunList (allocateIP s m).2 ms

/-! ## TFTP transfer engine (`tftp.go`, `Server.handleRead`)

The send loop of `handleRead` keeps a `uint16` block counter (starting
at 1) and a byte offset (starting at 0).  After each block it executes
`block++; offset = int(block-1) * blockSize`; since `block` and
`block-1` are `uint16` operations this is `(b+1) % 2^16` and
`((b' + 65535) % 65536) * 512`.  The initial state `block = 1`,
`offset = 0` also satisfies `offset = off block`, so the offset passed
into each iteration is always `off b`.

Each send attempt writes one DATA packet and performs one `conn.Read`
with a 3-second deadline; the reads are modelled by the oracle
`rs : ℕ → Option (List ℕ)` consumed left to right (`none` = read
error / timeout, `some buf` = bytes read, at most 4 of them since the
destination buffer has length 4). -/

/-- Big-endian `binary.BigEndian.Uint16(d[i:i+2])`. -/
def u16at (d : List ℕ) (i : ℕ) : ℕ := d.getD i 0 * 256 + d.getD (i + 1) 0

/-- `offset = int(block-1) * blockSize` with `uint16` subtraction. -/
def off (b : ℕ) : ℕ := ((b + 65535) % 65536) * 512

/-- The ACK test of one retry-loop iteration:
`n >= 4 && opcode == opACK && ackBlock == block`
(a well-formed ACK with a mismatched block number is treated exactly
like a timeout: the attempt just fails). -/
def isMatchingAck (b : ℕ) : Option (List ℕ) → Bool
  | none => false
  | some buf => 4 ≤ buf.length && u16at buf 0 == 4 && u16at buf 2 == b

/-- The inner loop `for retries := 0; retries < 5; retries++`:
each iteration sends the current DATA packet and reads one reply;
a matching ACK breaks out of the loop.  Returns the number of sends
performed for this block and the new oracle position.  Note that the
caller (`transferLoop`) never learns whether an ACK actually arrived:
this mirrors the Go code, where nothing after the loop inspects its
outcome. -/
def retryLoop (b : ℕ) (rs : ℕ → Option (List ℕ)) : ℕ → ℕ → ℕ × ℕ
  | 0, pos => (0, pos)
  | r + 1, pos =>
      if isMatchingAck b (rs pos) then (1, pos + 1)
      else
        let p := retryLoop b rs r (pos + 1)
        (p.1 + 1, p.2)

/-- The outer `for { ... }` loop of `handleRead`, for a file of size
`S` bytes.  Returns `some trace` when the loop terminates within
`fuel` iterations (it terminates exactly when a block carries fewer
than 512 bytes), `none` otherwise; `trace` lists one `(block, length)`
pair per DATA packet actually sent (one per send attempt).
`chunk := data[offset:end]` with `end = min (offset+512) S`. -/
def transferLoop (S : ℕ) (rs : ℕ → Option (List ℕ)) :
    ℕ → ℕ → ℕ → ℕ → Option (List (ℕ × ℕ))
  | 0, _, _, _ => none
  | fuel + 1, b, offset, pos =>
      let c := min (offset + 512) S - offset
      let p := retryLoop b rs 5 pos
      let sends := List.replicate p.1 (b, c)
      if c < 512 then some sends
      else
        let b' := (b + 1) % 65536
        (sends ++ ·) <$> transferLoop S rs fuel b' (off b') p.2

/-- Oracle delivering, for the `k`-th read of the whole transfer, a
well-formed ACK for block `k+1`: with it every block is acknowledged on
the first attempt, so read `k` happens while block `k+1` is in flight. -/
def rsGood : ℕ → Option (List ℕ) :=
  fun k => some [0, 4, (k + 1) / 256 % 256, (k + 1) % 256]

/-! ## Filename sanitization (`tftp.go` `handleRead` prologue)

`filepath.Clean` on a Unix target is `path.Clean` with separator `'/'`;
it is translated literally below (`cleanLoop` is the main scan loop,
`shrink` the backtracking scan of the `..` case, both with the loop
counters of the Go code; the lazybuf output buffer is the `out` list).
`strings.TrimPrefix(clean, "/")` is `trimSlash` and
`strings.Contains(clean, "..")` is `containsDotDot` (specialised to the
two-character pattern `".."`). -/

/-- The backtracking loop of the `..` case of `path.Clean`:
`out.w--; for out.w > dotdot && out.index(out.w) != '/' { out.w-- }`.
`shrink out dotdot w` is the final value of `out.w`, starting from `w`
(the caller passes `out.length - 1`, i.e. the state right after the
initial decrement). -/
def shrink (out : List Char) (dotdot : ℕ) : ℕ → ℕ
  | 0 => 0
  | w + 1 =>
      if dotdot < w + 1 ∧ out.getD (w + 1) ' ' ≠ '/' then shrink out dotdot w
      else w + 1

/-- The main `for r < n` loop of `path.Clean`.  One fuel unit per
iteration; every iteration advances `r` by at least one, so fuel
`path.length` is always sufficient. -/
def cleanLoop (path : List Char) (rooted : Bool) :
    ℕ → ℕ → List Char → ℕ → List Char
  | 0, _, out, _ => out
  | fuel + 1, r, out, dotdot =>
      if r < path.length then
        if path.getD r ' ' = '/' then
          -- empty path element
          cleanLoop path rooted fuel (r + 1) out dotdot
        else if path.getD r ' ' = '.' ∧ (r + 1 = path.length ∨ path.getD (r + 1) ' ' = '/') then
          -- "." element
          cleanLoop path rooted fuel (r + 1) out dotdot
        else if path.getD r ' ' = '.' ∧ path.getD (r + 1) ' ' = '.' ∧
            (r + 2 = path.length ∨ path.getD (r + 2) ' ' = '/') then
          -- ".." element: remove to last '/'
          if dotdot < out.length then
            cleanLoop path rooted fuel (r + 2)
              (out.take (shrink out dotdot (out.length - 1))) dotdot
          else if rooted = false then
            let out1 := (if 0 < out.length then out ++ ['/'] else out) ++ ['.', '.']
            cleanLoop path rooted fuel (r + 2) out1 out1.length
          else
            cleanLoop path rooted fuel (r + 2) out dotdot
        else
          -- real path element: add slash if needed, copy element
          let out1 :=
            if (rooted = true ∧ out.length ≠ 1) ∨ (rooted = false ∧ out.length ≠ 0)
            then out ++ ['/'] else out
          let seg := (path.drop r).takeWhile (fun c => c ≠ '/')
          cleanLoop path rooted fuel (r + seg.length) (out1 ++ seg) dotdot
      else out

/-- `filepath.Clean` (Unix separator). -/
def goClean (path : List Char) : List Char :=
  if path = [] then ['.']
  else
    let rooted := decide (path.headD ' ' = '/')
    let out :=
      if rooted then cleanLoop path rooted path.length 1 ['/'] 1
      else cleanLoop path rooted path.length 0 [] 0
    if out.length = 0 then ['.'] else out

/-- `strings.TrimPrefix(clean, "/")`: drop one leading separator. -/
def trimSlash (s : List Char) : List Char :=
  if s.headD ' ' = '/' then s.tail else s

/-- `strings.Contains(clean, "..")`: does `".."` occur as a substring? -/
def containsDotDot : List Char → Bool
  | [] => false
  | [_] => false
  | a :: b :: rest => (a == '.' && b == '.') || containsDotDot (b :: rest)

/-- A parent-directory segment: an occurrence of `".."` delimited on
both sides by a path separator or the corresponding end of the string.
(This is the spec's notion; the code tests the weaker condition
`containsDotDot`, which it implies.) -/
def HasParentSeg (s : List Char) : Prop :=
  ∃ pre post, s = pre ++ '.' :: '.' :: post ∧
    (pre = [] ∨ pre.getLast? = some '/') ∧
    (post = [] ∨ post.head? = some '/')

/-- Observable outcome of `Server.handleRead`. -/
inductive ReadOutcome
  | rejected
  | fileNotFound
  | started (trace : Option (List (ℕ × ℕ)))
deriving DecidableEq

/-- `Server.handleRead`: sanitize the path, reject traversal with no
reply at all, reply with one ERROR packet if the file is unreadable
(`fileNotFound`), otherwise run the block loop.  `file` is the
`os.ReadFile` result for the sanitized path, abstracted to the file
size (`none` = read error); the guard is evaluated before `file` is
consulted, exactly as in the Go code. -/
def handleRead (filename : List Char) (file : Option ℕ)
    (rs : ℕ → Option (List ℕ)) (fuel : ℕ) : ReadOutcome :=
  let clean := trimSlash (goClean filename)
  if containsDotDot clean then .rejected
  else
    match file with
    | none => .fileNotFound
    | some S => .started (transferLoop S rs fuel 1 0 0)

/-! ## DHCP packet codec (`dhcp.go`, `parsePacket` / `serializePacket`)

Bytes are `ℕ`; the fixed 240-byte BOOTP header layout is exactly the
one of the Go code (offsets 0..3 scalars, 4..12 xid/secs/flags,
12..28 the four addresses, 28..34 the 6 copied hardware-address bytes,
34..44 a zero gap, 44..108 sname, 108..236 file, 236..240 cookie).
`serializePacket` writes into a zeroed 576-byte buffer at strictly
increasing offsets and returns `buf[:i+1]`; this is rendered as the
concatenation of the written segments, where each bounded
`copy(buf[a:b], src)` into the zeroed buffer equals
`src.take (b-a) ++ replicate ((b-a) - src.length) 0 = padTo (b-a) src`. -/

/-- `binary.BigEndian.Uint32(d[i:i+4])`. -/
def u32at (d : List ℕ) (i : ℕ) : ℕ :=
  ((d.getD i 0 * 256 + d.getD (i + 1) 0) * 256 + d.getD (i + 2) 0) * 256 + d.getD (i + 3) 0

/-- `binary.BigEndian.PutUint16`. -/
def u16bytes (x : ℕ) : List ℕ := [x / 256 % 256, x % 256]

/-- `binary.BigEndian.PutUint32`. -/
def u32bytes (x : ℕ) : List ℕ :=
  [x / 16777216 % 256, x / 65536 % 256, x / 256 % 256, x % 256]

/-- Go `copy` of `l` into an `n`-byte zeroed destination. -/
def padTo (n : ℕ) (l : List ℕ) : List ℕ := l.take n ++ List.replicate (n - l.length) 0

/-- `net.IP.To4`: a 4-byte address is returned as is, a 16-byte
IPv4-mapped address is narrowed, anything else yields `nil` (`[]`). -/
def ipTo4 (ip : List ℕ) : List ℕ :=
  if ip.length = 4 then ip
  else if ip.length = 16 ∧ ip.take 10 = List.replicate 10 0 ∧
      ip.getD 10 0 = 255 ∧ ip.getD 11 0 = 255 then ip.drop 12
  else []

/-- Go map insert `p.Options[opt] = optData` on the association-list
model: overwrite the existing entry for the key, else append. -/
def insertOpt : List (ℕ × List ℕ) → ℕ → List ℕ → List (ℕ × List ℕ)
  | [], k, v => [(k, v)]
  | (k', v') :: t, k, v =>
      if k' = k then (k, v) :: t else (k', v') :: insertOpt t k v

/-- The option-parsing loop of `parsePacket`, on the suffix
`rem = data[i:]`: tag 255 terminates, tag 0 pads one byte, any other
tag is followed by a length byte and that many value bytes; a
truncated trailing option ends parsing without error.  Structural fuel
(one unit per iteration); fuel `≥ rem.length` reproduces the loop. -/
def parseOptsF : ℕ → List ℕ → List (ℕ × List ℕ) → List (ℕ × List ℕ)
  | 0, _, acc => acc
  | _ + 1, [], acc => acc
  | fuel + 1, opt :: rest, acc =>
      if opt = 255 then acc
      else if opt = 0 then parseOptsF fuel rest acc
      else
        match rest with
        | [] => acc
        | l :: rest2 =>
            if rest2.length < l then acc
            else parseOptsF fuel (rest2.drop l) (insertOpt acc opt (rest2.take l))

/-- The BOOTP/DHCP packet record of `dhcp.go` (`Packet`); `options`
is the map `Options map[byte][]byte` as an association list with
unique keys in insertion order. -/
structure Packet where
  op : ℕ
  htype : ℕ
  hlen : ℕ
  hops : ℕ
  xid : ℕ
  secs : ℕ
  flags : ℕ
  ciaddr : List ℕ
  yiaddr : List ℕ
  siaddr : List ℕ
  giaddr : List ℕ
  chaddr : List ℕ
  sname : List ℕ
  file : List ℕ
  options : List (ℕ × List ℕ)
deriving DecidableEq

/-- `parsePacket`: fails below 240 bytes; options are parsed only when
the packet extends past 240 bytes and the magic cookie 99,130,83,99
sits at offset 236. -/
def parsePacket (data : List ℕ) : Option Packet :=
  if data.length < 240 then none
  else some
    { op := data.getD 0 0, htype := data.getD 1 0
      hlen := data.getD 2 0, hops := data.getD 3 0
      xid := u32at data 4, secs := u16at data 8, flags := u16at data 10
      ciaddr := (data.drop 12).take 4, yiaddr := (data.drop 16).take 4
      siaddr := (data.drop 20).take 4, giaddr := (data.drop 24).take 4
      chaddr := (data.drop 28).take 6, sname := (data.drop 44).take 64
      file := (data.drop 108).take 128
      options :=
        if 240 < data.length ∧ data.getD 236 0 = 99 ∧ data.getD 237 0 = 130 ∧
            data.getD 238 0 = 83 ∧ data.getD 239 0 = 99
        then parseOptsF data.length (data.drop 240) [] else [] }

/-- Go map lookup `p.Options[k]` (`nil` when absent). -/
def optLookup : List (ℕ × List ℕ) → ℕ → Option (List ℕ)
  | [], _ => none
  | (k, v) :: t, key => if k = key then some v else optLookup t key

/-- The option-writing loop of `serializePacket`, starting at buffer
index `i` (240 for the real call): each option that still fits is
written as tag, length byte (`byte(len(data))`, hence `% 256`) and
value; the first option with `i + 2 + len ≥ 576` stops the loop
(`break`), silently discarding it and all remaining options. -/
def writeOpts : List (ℕ × List ℕ) → ℕ → List ℕ
  | [], _ => []
  | (t, v) :: rest, i =>
      if 576 ≤ i + 2 + v.length then []
      else t :: v.length % 256 :: (v ++ writeOpts rest (i + 2 + v.length))

/-- The 240-byte fixed region written by `serializePacket` (including
the zero gap at 34..44 that the Go code never writes, and the magic
cookie at 236). -/
def fixed240 (p : Packet) : List ℕ :=
  [p.op, p.htype, p.hlen, p.hops] ++ (u32bytes p.xid ++ (u16bytes p.secs ++ (u16bytes p.flags ++
    (padTo 4 (ipTo4 p.ciaddr) ++ (padTo 4 p.yiaddr ++ (padTo 4 p.siaddr ++
    (padTo 4 (ipTo4 p.giaddr) ++ (padTo 6 p.chaddr ++ (List.replicate 10 0 ++
    (padTo 64 p.sname ++ (padTo 128 p.file ++ [99, 130, 83, 99])))))))))))

/-- `serializePacket`: the 576-byte zeroed buffer written at strictly
increasing offsets and sliced to `buf[:i+1]` equals the concatenation
of the fixed region, the written options and the terminator 255. -/
def serializePacket (p : Packet) : List ℕ :=
  fixed240 p ++ (writeOpts p.options 240 ++ [255])

/-- Wire size of an option list: `2 + len(value)` bytes per option. -/
def optsWireLen : List (ℕ × List ℕ) → ℕ
  | [] => 0
  | (_, v) :: rest => 2 + v.length + optsWireLen rest

/-- Shape invariants of a `Packet` produced by `parsePacket` from a
byte-valued input (everything the re-encoder needs). -/
def WFPacket (p : Packet) : Prop :=
  p.xid < 4294967296 ∧ p.secs < 65536 ∧ p.flags < 65536 ∧
  p.ciaddr.length = 4 ∧ p.yiaddr.length = 4 ∧ p.siaddr.length = 4 ∧ p.giaddr.length = 4 ∧
  p.chaddr.length = 6 ∧ p.sname.length = 64 ∧ p.file.length = 128 ∧
  (p.options.map Prod.fst).Nodup ∧
  ∀ kv ∈ p.options, kv.1 ≠ 0 ∧ kv.1 ≠ 255 ∧ kv.2.length ≤ 255

/-! ## DHCP responder (`dhcp.go`, `ListenAndServe` / `sendOffer` /
`sendACK` / `sendReply`) -/

/-- The configuration fields used by `sendReply` (all addresses are
already in 4-byte form, as produced by `To4()` on the configured
values; `bootFile` and `tftpServer` are the configured strings as
byte lists). -/
structure Config where
  serverIP : List ℕ
  subnetMask : List ℕ
  bootFile : List ℕ
  tftpServer : List ℕ
deriving DecidableEq

/-- `subnet[i] = serverIP[i] | ^mask[i]` for i = 0..3 (byte complement
of `b` is `255 ^^^ b`). -/
def broadcastAddr (cfg : Config) : List ℕ :=
  (List.range 4).map (fun i => cfg.serverIP.getD i 0 ||| (255 ^^^ cfg.subnetMask.getD i 0))

/-- The reply packet built by `sendReply` (the client-architecture
option is inspected only for logging and never changes `bootFile`,
so it does not appear).  Option keys: 53 message type, 54 server id,
1 subnet mask, 3 router, 6 DNS, 51 lease time 3600s = 00 00 0E 10,
67 boot file, 66 TFTP server, 28 broadcast (added after the literal). -/
def mkReply (cfg : Config) (req : Packet) (msgType : ℕ) (clientIP : ℕ) : Packet :=
  { op := 2, htype := 1, hlen := 6, hops := 0
    xid := req.xid, secs := 0, flags := req.flags
    ciaddr := [], yiaddr := u32bytes clientIP, siaddr := cfg.serverIP, giaddr := []
    chaddr := req.chaddr
    sname := padTo 64 cfg.tftpServer, file := padTo 128 cfg.bootFile
    options :=
      [(53, [msgType]), (54, cfg.serverIP), (1, cfg.subnetMask), (3, cfg.serverIP),
       (6, cfg.serverIP), (51, [0, 0, 14, 16]), (67, cfg.bootFile), (66, cfg.tftpServer),
       (28, broadcastAddr cfg)] }

/-- The message dispatch of the DHCP receive loop: a missing or empty
message-type option (53) is dropped; DISCOVER (1) triggers `sendOffer`
(allocate + reply OFFER = 2), REQUEST (3) triggers `sendACK`
(allocate + reply ACK = 5); every other type is logged and dropped. -/
def handleMessage (cfg : Config) (s : DhcpState) (req : Packet) :
    Option Packet × DhcpState :=
  match optLookup req.options 53 with
  | none => (none, s)
  | some v =>
      if v.length = 0 then (none, s)
      else if v.headD 0 = 1 then
        let r := allocateIP s req.chaddr
        (some (mkReply cfg req 2 r.1), r.2)
      else if v.headD 0 = 3 then
        let r := allocateIP s req.chaddr
        (some (mkReply cfg req 5 r.1), r.2)
      else (none, s)

/-! ## Concrete fixtures used by witnesses and counterexamples -/

/-- A test configuration: server 10.0.0.1/24, boot file `"b"`,
TFTP server string `"1"` (as byte lists). -/
def cfg0 : Config := ⟨[10, 0, 0, 1], [255, 255, 255, 0], [98], [49]⟩

/-- Fresh allocator state with cursor 100. -/
def s0w : DhcpState := ⟨[], 100⟩

/-- A DISCOVER request from hardware address 00:00:00:00:00:01. -/
def req1w : Packet :=
  { op := 1, htype := 1, hlen := 6, hops := 0, xid := 7, secs := 0, flags := 32768
    ciaddr := [0, 0, 0, 0], yiaddr := [0, 0, 0, 0], siaddr := [0, 0, 0, 0]
    giaddr := [0, 0, 0, 0], chaddr := [0, 0, 0, 0, 0, 1]
    sname := List.replicate 64 0, file := List.replicate 128 0
    options := [(53, [1])] }

/-- A REQUEST from the same hardware address. -/
def req2w : Packet := { req1w with xid := 8, options := [(53, [3])] }

/-- A concrete 244-byte DHCP datagram: fixed header with xid 1,
cookie, one option (53 ↦ [1]) and terminator. -/
def data244 : List ℕ :=
  [1, 1, 6, 0, 0, 0, 0, 1, 0, 0, 0, 0] ++ List.replicate 224 0 ++
    [99, 130, 83, 99] ++ [53, 1, 1, 255]

/-- The packet `data244` decodes to. -/
def pc244 : Packet :=
  { op := 1, htype := 1, hlen := 6, hops := 0, xid := 1, secs := 0, flags := 0
    ciaddr := [0, 0, 0, 0], yiaddr := [0, 0, 0, 0], siaddr := [0, 0, 0, 0]
    giaddr := [0, 0, 0, 0], chaddr := [0, 0, 0, 0, 0, 0]
    sname := List.replicate 64 0, file := List.replicate 128 0
    options := [(53, [1])] }

/-- A packet whose single option (67, a 400-byte value) overflows the
option area: `240 + 2 + 400 = 642 ≥ 576`. -/
def pBig : Packet := { req1w with options := [(67, List.replicate 400 65)] }

/-! ## Supporting lemmas: lease table and TFTP run -/

theorem lookupLease_append_of_none {l : List (List ℕ × ℕ)} {mac : List ℕ}
    (h : lookupLease l mac = none) (l' : List (List ℕ × ℕ)) :
    lookupLease (l ++ l') mac = lookupLease l' mac := by
  induction l with
  | nil => simp [lookupLease]
  | cons kv t ih =>
      obtain ⟨k, v⟩ := kv
      by_cases hk : k = mac
      · simp [lookupLease, hk] at h
      · simp [lookupLease, hk] at h ⊢
        exact ih h

theorem lookupLease_append_left {l : List (List ℕ × ℕ)} {mac : List ℕ} {ip : ℕ}
    (h : lookupLease l mac = some ip) (l' : List (List ℕ × ℕ)) :
    lookupLease (l ++ l') mac = some ip := by
  induction l with
  | nil => simp [lookupLease] at h
  | cons kv t ih =>
      obtain ⟨k, v⟩ := kv
      by_cases hk : k = mac
      · simp [lookupLease, hk] at h ⊢; exact h
      · simp [lookupLease, hk] at h ⊢
        exact ih h

/-- An existing lease is never modified by a later allocation. -/
theorem lookupLease_allocateIP_stable {s : DhcpState} {mac : List ℕ} {ip : ℕ}
    (h : lookupLease s.leases mac = some ip) (m : List ℕ) :
    lookupLease ((allocateIP s m).2).leases mac = some ip := by
  unfold allocateIP
  cases hm : lookupLease s.leases m with
  | some ip' => simpa using h
  | none => simpa using lookupLease_append_left h _

/-- An existing lease survives any run of further allocations. -/
theorem lookupLease_allocRun_stable {s : DhcpState} {mac : List ℕ} {ip : ℕ}
    (h : lookupLease s.leases mac = some ip) (ms : List (List ℕ)) :
    lookupLease ((allocRun s ms)).leases mac = some ip := by
  induction ms generalizing s with
  | nil => simpa [allocRun] using h
  | cons m ms ih =>
      simpa [allocRun] using ih (lookupLease_allocateIP_stable h m)

/-- After `allocateIP s mac`, the table maps `mac` to the returned address. -/
theorem lookupLease_allocateIP_self (s : DhcpState) (mac : List ℕ) :
    lookupLease ((allocateIP s mac).2).leases mac = some (allocateIP s mac).1 := by
  unfold allocateIP
  cases hm : lookupLease s.leases mac with
  | some ip => simpa using hm
  | none =>
      simp only
      rw [lookupLease_append_of_none hm]
      simp [lookupLease]

/-- A lease lookup that succeeds makes `allocateIP` return that address. -/
theorem allocateIP_of_lookup {s : DhcpState} {mac : List ℕ} {ip : ℕ}
    (h : lookupLease s.leases mac = some ip) :
    (allocateIP s mac).1 = ip := by
  unfold allocateIP; rw [h]

theorem retryLoop_match {b pos : ℕ} {rs : ℕ → Option (List ℕ)}
    (h : isMatchingAck b (rs pos) = true) :
    retryLoop b rs 5 pos = (1, pos + 1) := by
  simp [retryLoop, h]

theorem isMatchingAck_rsGood {pos : ℕ} (h : pos + 1 < 65536) :
    isMatchingAck (pos + 1) (rsGood pos) = true := by
  have hred : isMatchingAck (pos + 1) (rsGood pos) =
      (((pos + 1) / 256 % 256 * 256 + (pos + 1) % 256) == (pos + 1)) := rfl
  rw [hred]
  simp only [beq_iff_eq]
  omega

/-- One acknowledged full-block step of the outer loop. -/
theorem transferLoop_step {S b pos fuel : ℕ} {rs : ℕ → Option (List ℕ)}
    (hc : min (off b + 512) S - off b = 512)
    (hack : isMatchingAck b (rs pos) = true) :
    transferLoop S rs (fuel + 1) b (off b) pos =
      ((b, 512) :: ·) <$> transferLoop S rs fuel ((b + 1) % 65536) (off ((b + 1) % 65536)) (pos + 1) := by
  rw [transferLoop]
  rw [retryLoop_match hack, hc]
  simp

/-- Acknowledged run of `m` consecutive full blocks `pos+1, …, pos+m`
under the `rsGood` oracle (no `uint16` wrap: all block numbers stay
below 65536). -/
theorem transferLoop_rsGood_run (S : ℕ) :
    ∀ m pos fuel, pos + m + 1 ≤ 65535 →
    (∀ k < m, min (off (pos + 1 + k) + 512) S - off (pos + 1 + k) = 512) →
    transferLoop S rsGood (m + fuel) (pos + 1) (off (pos + 1)) pos =
      ((List.range m).map (fun k => (pos + 1 + k, 512)) ++ ·) <$>
        transferLoop S rsGood fuel (pos + 1 + m) (off (pos + 1 + m)) (pos + m) := by
  intro m
  induction m with
  | zero => intro pos fuel _ _; simp
  | succ m ih =>
      intro pos fuel hle hfull
      have hb : pos + 1 < 65536 := by omega
      have hstep := @transferLoop_step S (pos + 1) pos (m + fuel) rsGood
        (by simpa using hfull 0 (by omega)) (isMatchingAck_rsGood hb)
      have hmod : (pos + 1 + 1) % 65536 = pos + 1 + 1 := by omega
      rw [hmod] at hstep
      have ih' := ih (pos + 1) fuel (by omega)
        (by
          intro k hk
          have h2 := hfull (k + 1) (by omega)
          have h3 : pos + 1 + 1 + k = pos + 1 + (k + 1) := by omega
          rw [h3]
          exact h2)
      have e1 : pos + 1 + 1 + m = pos + 1 + (m + 1) := by omega
      have e2 : pos + 1 + m = pos + (m + 1) := by omega
      rw [e1, e2] at ih'
      rw [show m + 1 + fuel = m + fuel + 1 by omega, hstep, ih']
      cases transferLoop S rsGood fuel (pos + 1 + (m + 1)) (off (pos + 1 + (m + 1))) (pos + (m + 1)) with
      | none => simp
      | some t =>
          simp only [Option.map_some]
          refine congrArg some ?_
          rw [List.range_succ_eq_map]
          simp only [List.map_cons, List.map_map, List.cons_append, List.cons.injEq]
          refine ⟨by simp, ?_⟩
          refine congrArg (fun l => l ++ t) ?_
          apply List.map_congr_left
          intro k hk
          simp only [Function.comp_apply, Prod.mk.injEq, Nat.succ_eq_add_one]
          exact ⟨by omega, trivial⟩

/-! ## Supporting lemmas for the TFTP block loop -/

theorem chunk_full_of_le {S x : ℕ} (h : x + 512 ≤ S) :
    min (x + 512) S - x = 512 := by
  rw [Nat.min_eq_left h]; omega

theorem chunk_eq_of_lt {S x : ℕ} (h : S < x + 512) :
    min (x + 512) S - x = S - x := by
  rw [Nat.min_eq_right (by omega)]

theorem off_small {k : ℕ} (h : k < 65536) : off (k + 1) = k * 512 := by
  unfold off
  have e : (k + 1 + 65535) % 65536 = k := by omega
  rw [e]

theorem off_le (b : ℕ) : off b ≤ 512 * 65535 := by
  unfold off
  have h : (b + 65535) % 65536 < 65536 := Nat.mod_lt _ (by norm_num)
  omega

/-- Unfolding of one outer iteration on a short (final) chunk. -/
theorem transferLoop_stop {S b pos fuel : ℕ} {rs : ℕ → Option (List ℕ)}
    (hc : min (off b + 512) S - off b < 512) :
    transferLoop S rs (fuel + 1) b (off b) pos =
      some (List.replicate (retryLoop b rs 5 pos).1 (b, min (off b + 512) S - off b)) := by
  rw [transferLoop]
  simp only [hc, if_true]

/-- Unfolding of one outer iteration on a full chunk (any oracle). -/
theorem transferLoop_step_full {S b pos fuel : ℕ} {rs : ℕ → Option (List ℕ)}
    (hc : min (off b + 512) S - off b = 512) :
    transferLoop S rs (fuel + 1) b (off b) pos =
      (List.replicate (retryLoop b rs 5 pos).1 (b, 512) ++ ·) <$>
        transferLoop S rs fuel ((b + 1) % 65536) (off ((b + 1) % 65536)) (retryLoop b rs 5 pos).2 := by
  rw [transferLoop, hc]
  simp

/-- Whatever the oracle answers, the loop terminates as soon as a short
chunk is reached: `m` full blocks followed by one short block. -/
theorem transferLoop_terminates {S : ℕ} (rs : ℕ → Option (List ℕ)) :
    ∀ m b pos fuel, b < 65536 → m < fuel →
    (∀ k < m, min (off ((b + k) % 65536) + 512) S - off ((b + k) % 65536) = 512) →
    min (off ((b + m) % 65536) + 512) S - off ((b + m) % 65536) < 512 →
    (transferLoop S rs fuel b (off b) pos).isSome = true := by
  intro m
  induction m with
  | zero =>
      intro b pos fuel hb hf hfull hshort
      obtain ⟨f, rfl⟩ : ∃ f, fuel = f + 1 := ⟨fuel - 1, by omega⟩
      have hb0 : (b + 0) % 65536 = b := by omega
      rw [hb0] at hshort
      rw [transferLoop_stop hshort]
      rfl
  | succ m ih =>
      intro b pos fuel hb hf hfull hshort
      obtain ⟨f, rfl⟩ : ∃ f, fuel = f + 1 := ⟨fuel - 1, by omega⟩
      have hb0 : (b + 0) % 65536 = b := by omega
      have hc := hfull 0 (by omega)
      rw [hb0] at hc
      rw [transferLoop_step_full hc, Option.isSome_map]
      refine ih ((b + 1) % 65536) (retryLoop b rs 5 pos).2 f
        (Nat.mod_lt _ (by norm_num)) (by omega) ?_ ?_
      · intro k hk
        have h2 := hfull (k + 1) (by omega)
        have e : ((b + 1) % 65536 + k) % 65536 = (b + (k + 1)) % 65536 := by
          omega
        rw [e]
        exact h2
      · have e : ((b + 1) % 65536 + m) % 65536 = (b + (m + 1)) % 65536 := by
          omega
        rw [e]
        exact hshort

/-! ## C1 — retry exhaustion -/

/-- C1 (code_bug evidence): a 1024-byte file with no ACK ever arriving.
Every one of the five attempts for block 1 fails, yet the transfer is
not abandoned: DATA packets for block 2 (five sends) and block 3 (the
final empty block, five sends) are still transmitted, because the Go
code never inspects the outcome of the retry loop before advancing.
The claim (and the spec) says no further DATA packet may be sent. -/
theorem tftp_retry_exhaustion_continues :
    transferLoop 1024 (fun _ => none) 3 1 0 0 =
      some (List.replicate 5 (1, 512) ++
        (List.replicate 5 (2, 512) ++ List.replicate 5 (3, 0))) := by
  rfl

/-! ## C3 — block sequence of an acknowledged transfer -/

/-- C3 (counterexample): for an empty file (`S = 0`) the claim predicts
`ceil(0/512) = 0` DATA blocks and no extra zero-length block (0 is not
a *nonzero* multiple of 512), i.e. the trace `[]`; the code sends one
zero-length DATA block numbered 1. -/
theorem tftp_blocks_zero_size_counterexample :
    transferLoop 0 rsGood 1 1 0 0 = some [(1, 0)] ∧
      transferLoop 0 rsGood 1 1 0 0 ≠ some [] := by
  exact ⟨rfl, by decide⟩

/-- C3 (amended): for a file of `S` bytes with `S < 512·65535` (so the
16-bit block counter never wraps, cf. C10) and every block acknowledged
on its first attempt, the transfer sends exactly `S/512` full 512-byte
DATA blocks numbered `1, 2, …, S/512` in strictly increasing order,
followed by one final DATA block numbered `S/512 + 1` carrying
`S mod 512` bytes, and terminates.  For `S ≥ 1` this is exactly
`ceil(S/512)` blocks plus one additional zero-length final block when
`S` is a nonzero multiple of 512; for `S = 0` it is a single
zero-length block rather than the zero blocks the claim predicts. -/
theorem tftp_block_sequence (S : ℕ) (h : S < 512 * 65535) :
    transferLoop S rsGood (S / 512 + 1) 1 0 0 =
      some ((List.range (S / 512)).map (fun k => (k + 1, 512)) ++
        [(S / 512 + 1, S % 512)]) := by
  have hq : S / 512 ≤ 65534 := by omega
  have hfull : ∀ k < S / 512,
      min (off (0 + 1 + k) + 512) S - off (0 + 1 + k) = 512 := by
    intro k hk
    rw [show 0 + 1 + k = k + 1 by omega, off_small (by omega)]
    exact chunk_full_of_le (by omega)
  have hrun := transferLoop_rsGood_run S (S / 512) 0 1 (by omega) hfull
  have hack : isMatchingAck (0 + 1 + S / 512) (rsGood (0 + S / 512)) = true := by
    have h2 := @isMatchingAck_rsGood (S / 512) (by omega)
    rw [show 0 + 1 + S / 512 = S / 512 + 1 by omega, show 0 + S / 512 = S / 512 by omega]
    exact h2
  have hoffq : off (0 + 1 + S / 512) = S / 512 * 512 := by
    rw [show 0 + 1 + S / 512 = S / 512 + 1 by omega, off_small (by omega)]
  have hcz : min (off (0 + 1 + S / 512) + 512) S - off (0 + 1 + S / 512) = S % 512 := by
    rw [hoffq, chunk_eq_of_lt (by omega)]
    omega
  have hstop : transferLoop S rsGood 1 (0 + 1 + S / 512) (off (0 + 1 + S / 512)) (0 + S / 512) =
      some [(0 + 1 + S / 512, S % 512)] := by
    rw [show (1 : ℕ) = 0 + 1 from rfl, transferLoop_stop (by rw [hcz]; omega)]
    rw [retryLoop_match hack, hcz]
    rfl
  rw [hstop] at hrun
  rw [show off (0 + 1) = 0 from rfl] at hrun
  rw [show (0 : ℕ) + 1 = 1 from rfl] at hrun
  rw [hrun]
  simp only [Option.map_some]
  refine congrArg some (congrArg₂ (· ++ ·) ?_ ?_)
  · apply List.map_congr_left
    intro k _
    simp only [Prod.mk.injEq]
    exact ⟨by omega, trivial⟩
  · rw [Nat.add_comm 1 (S / 512)]

/-- C3 witness at `S = 3`. -/
theorem tftp_block_sequence_witness :
    transferLoop 3 rsGood (3 / 512 + 1) 1 0 0 =
      some ((List.range (3 / 512)).map (fun k => (k + 1, 512)) ++
        [(3 / 512 + 1, 3 % 512)]) :=
  tftp_block_sequence 3 (by norm_num)

/-! ## C10 — 16-bit block counter wrap -/

/-- C10 (counterexample): at `S = 512·65535 + 1` the claim predicts the
transfer never reaches the final short block; in fact after the wrap
(`block = 0`, `offset = int(block-1)*512 = 512·65535`) the chunk
carries one byte, which is short, so the loop terminates (the trace is
`some _`, i.e. `isSome`). -/
theorem tftp_wrap_short_counterexample :
    (transferLoop 33553921 (fun _ => none) 65536 1 0 0).isSome = true := by
  have hfull : ∀ k < 65535,
      min (off ((1 + k) % 65536) + 512) 33553921 - off ((1 + k) % 65536) = 512 := by
    intro k hk
    have e : (1 + k) % 65536 = k + 1 := by omega
    rw [e, off_small (by omega)]
    exact chunk_full_of_le (by omega)
  have hshort : min (off ((1 + 65535) % 65536) + 512) 33553921 -
      off ((1 + 65535) % 65536) < 512 := by
    have e : (1 + 65535) % 65536 = 0 := by norm_num
    rw [e, show off 0 = 33553920 by norm_num [off], chunk_eq_of_lt (by norm_num)]
    norm_num
  have h := transferLoop_terminates (S := 33553921) (fun _ => none) 65535 1 0 65536
    (by norm_num) (by norm_num) hfull hshort
  rw [show off 1 = 0 from rfl] at h
  exact h

/-- C10 (amended): the block counter is `uint16` and the offset of the
next block is recomputed as `(block - 1 mod 2^16) * 512`; after block
65535 the counter wraps to 0 (`(65535+1) % 65536 = 0`) and the offset
restarts at `off 0 = 512·65535`.  Consequently, for every file of at
least `512·65536` bytes the chunk is always full: the transfer never
terminates (for any oracle, any fuel, from any reachable block), never
reaches a final short block, and only ever reads file data below
offset `512·65536` (every chunk lies within `[off b, off b + 512) ⊆
[0, 512·65536)`).  For `512·65535 < S < 512·65536` (the claim's lower
bound) the wrapped block 0 is short and terminates the transfer — the
counterexample above. -/
theorem tftp_wrap_nontermination (S : ℕ) (h : 512 * 65536 ≤ S) :
    (∀ (rs : ℕ → Option (List ℕ)) (fuel b pos : ℕ),
        transferLoop S rs fuel b (off b) pos = none) ∧
    (∀ b : ℕ, off b + 512 ≤ 512 * 65536) ∧
    (65535 + 1) % 65536 = 0 ∧ off 0 = 512 * 65535 := by
  refine ⟨?_, fun b => by have := off_le b; omega, by norm_num, by norm_num [off]⟩
  intro rs fuel
  induction fuel with
  | zero => intro b pos; rfl
  | succ f ih =>
      intro b pos
      have hc : min (off b + 512) S - off b = 512 :=
        chunk_full_of_le (by have := off_le b; omega)
      rw [transferLoop_step_full hc, ih]
      rfl

/-- C10 amended-claim witness at `S = 512·65536`. -/
theorem tftp_wrap_nontermination_witness :
    transferLoop (512 * 65536) (fun _ => none) 3 1 (off 1) 0 = none :=
  (tftp_wrap_nontermination (512 * 65536) (le_refl _)).1 (fun _ => none) 3 1 0

/-! ## C2 — lease range exhaustion -/

/-- C2 (code_bug evidence): with the configured range collapsed to the
single address 10.0.0.100 (= 167772260), allocating for a second
distinct hardware address returns 10.0.0.101 (= 167772261) — outside
the configured range — and advances the cursor to 167772262, past the
range end.  `allocateIP` never consults the range end and its return
type (`net.IP` with no error result, modelled as `ℕ × DhcpState`)
cannot report exhaustion. -/
theorem alloc_exhaustion_unchecked :
    (allocateIP (allocateIP ⟨[], 167772260⟩ [0, 0, 0, 0, 0, 1]).2 [0, 0, 0, 0, 0, 2]).1 =
      167772261 ∧
    ((allocateIP (allocateIP ⟨[], 167772260⟩ [0, 0, 0, 0, 0, 1]).2 [0, 0, 0, 0, 0, 2]).2).nextIP =
      167772262 := by
  exact ⟨rfl, rfl⟩

/-! ## C6 — sequential allocation for distinct hardware addresses -/

/-- Fresh allocations from a table that contains none of the given
(pairwise distinct) addresses hand out consecutive cursor values. -/
theorem allocRunList_fresh :
    ∀ (macs : List (List ℕ)) (leases : List (List ℕ × ℕ)) (start : ℕ),
    (∀ m ∈ macs, lookupLease leases m = none) → macs.Nodup →
    start + macs.length ≤ 4294967296 →
    allocRunList ⟨leases, start⟩ macs = (List.range macs.length).map (start + ·) := by
  intro macs
  induction macs with
  | nil => intro leases start _ _ _; rfl
  | cons m ms ih =>
      intro leases start hnone hnodup hle
      have hm : lookupLease leases m = none := hnone m (by simp)
      have hmem : m ∉ ms := (List.nodup_cons.mp hnodup).1
      rw [allocRunList]
      unfold allocateIP
      rw [hm]
      simp only
      cases hms : ms with
      | nil => simp [allocRunList, List.range_succ]
      | cons m2 ms2 =>
          rw [← hms]
          have hlen : 0 < ms.length := by rw [hms]; simp
          have hmod : (start + 1) % 4294967296 = start + 1 := by
            simp only [List.length_cons] at hle
            omega
          rw [hmod]
          have ih' := ih (leases ++ [(m, start)]) (start + 1)
            (by
              intro m' hm'
              rw [lookupLease_append_of_none (hnone m' (by simp [hm']))]
              have hne : m ≠ m' := fun he => hmem (he ▸ hm')
              simp [lookupLease, hne])
            (List.nodup_cons.mp hnodup).2
            (by simp only [List.length_cons] at hle; omega)
          rw [ih']
          simp only [List.length_cons]
          rw [List.range_succ_eq_map]
          simp only [List.map_cons, List.map_map]
          refine congrArg₂ (· :: ·) (by omega) ?_
          apply List.map_congr_left
          intro k _
          simp only [Function.comp_apply]
          omega

/-- C6 (amended): from a fresh server, allocations for pairwise
distinct hardware addresses return `RangeStart, RangeStart+1, …` in
order of first allocation — pairwise distinct and consecutively
increasing — provided `RangeStart + #clients ≤ 2^32` (the cursor is a
`uint32` and wraps modulo `2^32` otherwise, see the counterexample). -/
theorem alloc_sequential (start : ℕ) (macs : List (List ℕ)) (hnodup : macs.Nodup)
    (hle : start + macs.length ≤ 4294967296) :
    allocRunList ⟨[], start⟩ macs = (List.range macs.length).map (start + ·) :=
  allocRunList_fresh macs [] start (fun _ _ => rfl) hnodup hle

/-- C6 witness: three distinct addresses from 10.0.0.100. -/
theorem alloc_sequential_witness :
    allocRunList ⟨[], 167772260⟩ [[0, 0, 0, 0, 0, 1], [0, 0, 0, 0, 0, 2], [0, 0, 0, 0, 0, 3]] =
      (List.range 3).map (167772260 + ·) :=
  alloc_sequential 167772260 _ (by decide) (by norm_num)

/-- C6 (counterexample): with `RangeStart = 255.255.255.255`
(= 2^32 − 1), the second distinct client receives `0` (0.0.0.0), not
`RangeStart + 1`: the sequence is neither consecutive nor increasing,
because the `uint32` cursor wraps. -/
theorem alloc_wrap_counterexample :
    allocRunList ⟨[], 4294967295⟩ [[0, 0, 0, 0, 0, 1], [0, 0, 0, 0, 0, 2]] =
      [4294967295, 0] ∧ (0 : ℕ) ≠ 4294967295 + 1 := by
  exact ⟨rfl, by norm_num⟩

/-! ## C8 — path traversal rejection -/

/-- Any string of the form `pre ++ ".." ++ post` makes
`strings.Contains(s, "..")` succeed. -/
theorem containsDotDot_of_split (pre post : List Char) :
    containsDotDot (pre ++ '.' :: '.' :: post) = true := by
  induction pre with
  | nil => rfl
  | cons c pre ih =>
      cases pre with
      | nil =>
          show containsDotDot (c :: '.' :: '.' :: post) = true
          rw [containsDotDot]
          rw [show containsDotDot ('.' :: '.' :: post) = true from ih]
          simp
      | cons c2 pre2 =>
          show containsDotDot (c :: c2 :: (pre2 ++ '.' :: '.' :: post)) = true
          rw [containsDotDot]
          rw [show containsDotDot (c2 :: (pre2 ++ '.' :: '.' :: post)) = true from ih]
          simp

/-- C8: if the filename, after `filepath.Clean` and stripping one
leading separator, contains a parent-directory segment, `handleRead`
abandons the request before any file access: the result is `rejected`
for *every* possible filesystem answer `file` (so no file is read) and
no packet of any kind is recorded. -/
theorem path_traversal_rejected (filename : List Char) (file : Option ℕ)
    (rs : ℕ → Option (List ℕ)) (fuel : ℕ)
    (h : HasParentSeg (trimSlash (goClean filename))) :
    handleRead filename file rs fuel = ReadOutcome.rejected := by
  obtain ⟨pre, post, hsplit, -, -⟩ := h
  have hdd : containsDotDot (trimSlash (goClean filename)) = true := by
    rw [hsplit]
    exact containsDotDot_of_split pre post
  unfold handleRead
  simp only [hdd, if_true]

/-- C8 witness: the request `"../secret"` (cleaned: `"../secret"`). -/
theorem path_traversal_rejected_witness :
    handleRead ("../secret".toList) (some 5) (fun _ => none) 1 = ReadOutcome.rejected :=
  path_traversal_rejected _ _ _ _
    ⟨[], "/secret".toList, by decide, Or.inl rfl, Or.inr (by decide)⟩

/-! ## C5 — idempotent allocation, OFFER/ACK agreement -/

/-- C5: allocation is idempotent per hardware address, across any
interleaved allocations for other clients; consequently a REQUEST from
the same hardware address as a prior DISCOVER is answered with an ACK
whose `yiaddr` equals the OFFER's `yiaddr`. -/
theorem alloc_idempotent (s : DhcpState) (cfg : Config) (req1 req2 : Packet)
    (ms : List (List ℕ))
    (h1 : optLookup req1.options 53 = some [1])
    (h2 : optLookup req2.options 53 = some [3])
    (hm : req2.chaddr = req1.chaddr) :
    (allocateIP (allocRun (allocateIP s req1.chaddr).2 ms) req1.chaddr).1 =
      (allocateIP s req1.chaddr).1 ∧
    ∃ offer ack s1 s2,
      handleMessage cfg s req1 = (some offer, s1) ∧
      handleMessage cfg (allocRun s1 ms) req2 = (some ack, s2) ∧
      ack.yiaddr = offer.yiaddr := by
  have hidem : (allocateIP (allocRun (allocateIP s req1.chaddr).2 ms) req1.chaddr).1 =
      (allocateIP s req1.chaddr).1 :=
    allocateIP_of_lookup
      (lookupLease_allocRun_stable (lookupLease_allocateIP_self s req1.chaddr) ms)
  refine ⟨hidem, mkReply cfg req1 2 (allocateIP s req1.chaddr).1,
    mkReply cfg req2 5 (allocateIP (allocRun (allocateIP s req1.chaddr).2 ms) req2.chaddr).1,
    (allocateIP s req1.chaddr).2,
    (allocateIP (allocRun (allocateIP s req1.chaddr).2 ms) req2.chaddr).2, ?_, ?_, ?_⟩
  · rw [handleMessage, h1]
    simp
  · rw [handleMessage, h2]
    simp
  · simp only [mkReply]
    rw [hm, hidem]

/-- C5 witness: DISCOVER then (after an unrelated allocation) REQUEST
from hardware address 00:00:00:00:00:01 on a fresh allocator. -/
theorem alloc_idempotent_witness :
    (allocateIP (allocRun (allocateIP s0w req1w.chaddr).2 [[9, 9, 9, 9, 9, 9]]) req1w.chaddr).1 =
      (allocateIP s0w req1w.chaddr).1 ∧
    ∃ offer ack s1 s2,
      handleMessage cfg0 s0w req1w = (some offer, s1) ∧
      handleMessage cfg0 (allocRun s1 [[9, 9, 9, 9, 9, 9]]) req2w = (some ack, s2) ∧
      ack.yiaddr = offer.yiaddr :=
  alloc_idempotent s0w cfg0 req1w req2w [[9, 9, 9, 9, 9, 9]] rfl rfl rfl

/-! ## C7 — responder replies -/

/-- C7: dispatch and reply construction.  A missing or empty
message-type option, or any type other than DISCOVER (1) and
REQUEST (3), produces no reply and leaves the state unchanged.
DISCOVER produces an OFFER (type 2) and REQUEST an ACK (type 5); in
both cases the reply has opcode 2, echoed transaction id and flags,
`yiaddr` = the address allocated for the requesting hardware address,
`siaddr` = the server address, the boot file both as option 67 and in
the fixed `file` header field, the TFTP server both as option 66 and
in the fixed `sname` header field, and options: 54 = server id,
1 = subnet mask, 3 = router = server, 6 = DNS = server, 51 = lease
time 3600 s. -/
theorem dhcp_responder_reply (cfg : Config) (s : DhcpState) (req : Packet) :
    (optLookup req.options 53 = none → handleMessage cfg s req = (none, s)) ∧
    (optLookup req.options 53 = some [] → handleMessage cfg s req = (none, s)) ∧
    (∀ v, optLookup req.options 53 = some v → v.headD 0 ≠ 1 → v.headD 0 ≠ 3 →
        handleMessage cfg s req = (none, s)) ∧
    (∀ mt, (mt = 1 ∨ mt = 3) → optLookup req.options 53 = some [mt] →
      ∀ r s', handleMessage cfg s req = (some r, s') →
        r.op = 2 ∧ r.htype = 1 ∧ r.hlen = 6 ∧ r.xid = req.xid ∧ r.flags = req.flags ∧
        r.yiaddr = u32bytes (allocateIP s req.chaddr).1 ∧
        r.siaddr = cfg.serverIP ∧ r.chaddr = req.chaddr ∧
        r.sname = padTo 64 cfg.tftpServer ∧ r.file = padTo 128 cfg.bootFile ∧
        optLookup r.options 53 = some [if mt = 1 then 2 else 5] ∧
        optLookup r.options 54 = some cfg.serverIP ∧
        optLookup r.options 1 = some cfg.subnetMask ∧
        optLookup r.options 3 = some cfg.serverIP ∧
        optLookup r.options 6 = some cfg.serverIP ∧
        optLookup r.options 51 = some (u32bytes 3600) ∧
        optLookup r.options 67 = some cfg.bootFile ∧
        optLookup r.options 66 = some cfg.tftpServer ∧
        s' = (allocateIP s req.chaddr).2) := by
  refine ⟨?_, ?_, ?_, ?_⟩
  · intro h
    rw [handleMessage, h]
  · intro h
    rw [handleMessage, h]
    simp
  · intro v hv h1 h3
    rw [handleMessage, hv]
    rcases v with - | ⟨x, t⟩
    · simp
    · simp only [List.headD_cons] at h1 h3
      simp [h1, h3]
  · rintro mt (rfl | rfl) hv r s' heq <;>
    · rw [handleMessage, hv] at heq
      simp only [List.length_cons, List.length_nil, List.headD_cons] at heq
      norm_num at heq
      obtain ⟨hr, hs⟩ := heq
      subst hs
      rw [← hr]
      refine ⟨rfl, rfl, rfl, rfl, rfl, rfl, rfl, rfl, rfl, rfl, ?_⟩
      simp [mkReply, optLookup, u32bytes]

/-- C7 witness: a concrete DISCOVER on a fresh state.  The reply
exists and carries the allocated address 100 (`s0w`'s cursor). -/
theorem dhcp_responder_reply_witness :
    (mkReply cfg0 req1w 2 100).op = 2 ∧ (mkReply cfg0 req1w 2 100).htype = 1 ∧
    (mkReply cfg0 req1w 2 100).hlen = 6 ∧ (mkReply cfg0 req1w 2 100).xid = req1w.xid ∧
    (mkReply cfg0 req1w 2 100).flags = req1w.flags ∧
    (mkReply cfg0 req1w 2 100).yiaddr = u32bytes (allocateIP s0w req1w.chaddr).1 ∧
    (mkReply cfg0 req1w 2 100).siaddr = cfg0.serverIP ∧
    (mkReply cfg0 req1w 2 100).chaddr = req1w.chaddr ∧
    (mkReply cfg0 req1w 2 100).sname = padTo 64 cfg0.tftpServer ∧
    (mkReply cfg0 req1w 2 100).file = padTo 128 cfg0.bootFile ∧
    optLookup (mkReply cfg0 req1w 2 100).options 53 = some [if (1 : ℕ) = 1 then 2 else 5] ∧
    optLookup (mkReply cfg0 req1w 2 100).options 54 = some cfg0.serverIP ∧
    optLookup (mkReply cfg0 req1w 2 100).options 1 = some cfg0.subnetMask ∧
    optLookup (mkReply cfg0 req1w 2 100).options 3 = some cfg0.serverIP ∧
    optLookup (mkReply cfg0 req1w 2 100).options 6 = some cfg0.serverIP ∧
    optLookup (mkReply cfg0 req1w 2 100).options 51 = some (u32bytes 3600) ∧
    optLookup (mkReply cfg0 req1w 2 100).options 67 = some cfg0.bootFile ∧
    optLookup (mkReply cfg0 req1w 2 100).options 66 = some cfg0.tftpServer ∧
    (allocateIP s0w req1w.chaddr).2 = (allocateIP s0w req1w.chaddr).2 :=
  (dhcp_responder_reply cfg0 s0w req1w).2.2.2 1 (Or.inl rfl) rfl
    (mkReply cfg0 req1w 2 100) (allocateIP s0w req1w.chaddr).2 rfl

/-! ## C4 — codec roundtrip: supporting lemmas -/

theorem padTo_length (n : ℕ) (l : List ℕ) : (padTo n l).length = n := by
  simp [padTo]
  omega

theorem padTo_self {n : ℕ} {l : List ℕ} (h : l.length = n) : padTo n l = l := by
  unfold padTo
  rw [h, Nat.sub_self]
  simp [List.take_of_length_le (le_of_eq h)]

theorem ipTo4_len4 {l : List ℕ} (h : l.length = 4) : ipTo4 l = l := by
  unfold ipTo4
  rw [if_pos h]

theorem drop_drop_swap (l : List ℕ) (a n : ℕ) : l.drop (n + a) = (l.drop a).drop n := by
  rw [List.drop_drop, Nat.add_comm]

theorem drop_chain {l seg l₂ : List ℕ} {a n : ℕ}
    (h : l.drop a = seg ++ l₂) (hn : seg.length = n) : l.drop (n + a) = l₂ := by
  rw [drop_drop_swap, h, List.drop_left' hn]

theorem getD_at {l l₂ : List ℕ} {a : ℕ} (h : l.drop a = l₂) (k : ℕ) :
    l.getD (a + k) 0 = l₂.getD k 0 := by
  rw [← h]
  simp [List.getD_eq_getElem?_getD, List.getElem?_drop]

theorem u16at_eq_drop (l : List ℕ) (a : ℕ) : u16at l a = u16at (l.drop a) 0 := by
  simp [u16at, List.getD_eq_getElem?_getD, List.getElem?_drop]

theorem u32at_eq_drop (l : List ℕ) (a : ℕ) : u32at l a = u32at (l.drop a) 0 := by
  simp only [u32at, List.getD_eq_getElem?_getD, List.getElem?_drop]
  norm_num

theorem u16at_bytes {x : ℕ} (rest : List ℕ) (h : x < 65536) :
    u16at (u16bytes x ++ rest) 0 = x := by
  have e : u16at (u16bytes x ++ rest) 0 = x / 256 % 256 * 256 + x % 256 := rfl
  rw [e]
  omega

theorem u32at_bytes {x : ℕ} (rest : List ℕ) (h : x < 4294967296) :
    u32at (u32bytes x ++ rest) 0 = x := by
  have e : u32at (u32bytes x ++ rest) 0 =
      ((x / 16777216 % 256 * 256 + x / 65536 % 256) * 256 + x / 256 % 256) * 256 + x % 256 := rfl
  rw [e]
  omega

theorem getD_lt_of_all {l : List ℕ} (h : ∀ x ∈ l, x < 256) (i : ℕ) :
    l.getD i 0 < 256 := by
  induction l generalizing i with
  | nil => simp [List.getD]
  | cons a t ih =>
      cases i with
      | zero => exact h a (by simp)
      | succ j =>
          simp only [List.getD_cons_succ]
          exact ih (fun x hx => h x (by simp [hx])) j

theorem optLookup_append_of_none {l : List (ℕ × List ℕ)} {k : ℕ}
    (h : optLookup l k = none) (l₂ : List (ℕ × List ℕ)) :
    optLookup (l ++ l₂) k = optLookup l₂ k := by
  induction l with
  | nil => simp [optLookup]
  | cons kv t ih =>
      obtain ⟨k', v'⟩ := kv
      by_cases hk : k' = k
      · simp [optLookup, hk] at h
      · simp only [optLookup, hk, if_false, List.cons_append] at h ⊢
        exact ih h

theorem optLookup_none_not_mem {l : List (ℕ × List ℕ)} {k : ℕ}
    (h : optLookup l k = none) : k ∉ l.map Prod.fst := by
  induction l with
  | nil => simp
  | cons kv t ih =>
      obtain ⟨k', v'⟩ := kv
      by_cases hk : k' = k
      · simp [optLookup, hk] at h
      · simp only [optLookup, hk, if_false] at h
        simp only [List.map_cons, List.mem_cons]
        rintro (rfl | hm)
        · exact hk rfl
        · exact ih h hm

theorem insertOpt_of_none {acc : List (ℕ × List ℕ)} {k : ℕ} (v : List ℕ)
    (h : optLookup acc k = none) : insertOpt acc k v = acc ++ [(k, v)] := by
  induction acc with
  | nil => rfl
  | cons kv t ih =>
      obtain ⟨k', v'⟩ := kv
      by_cases hk : k' = k
      · simp [optLookup, hk] at h
      · simp only [optLookup, hk, if_false] at h
        simp only [insertOpt, hk, if_false, List.cons_append]
        rw [ih h]

theorem insertOpt_fst_of_some {acc : List (ℕ × List ℕ)} {k : ℕ} {w : List ℕ} (v : List ℕ)
    (h : optLookup acc k = some w) :
    (insertOpt acc k v).map Prod.fst = acc.map Prod.fst := by
  induction acc with
  | nil => simp [optLookup] at h
  | cons kv t ih =>
      obtain ⟨k', v'⟩ := kv
      by_cases hk : k' = k
      · simp [insertOpt, hk]
      · simp only [optLookup, hk, if_false] at h
        simp only [insertOpt, hk, if_false, List.map_cons]
        rw [ih h]

theorem mem_insertOpt {acc : List (ℕ × List ℕ)} {k : ℕ} {v : List ℕ} {kv : ℕ × List ℕ}
    (h : kv ∈ insertOpt acc k v) : kv = (k, v) ∨ kv ∈ acc := by
  induction acc with
  | nil => simpa [insertOpt] using h
  | cons kv' t ih =>
      obtain ⟨k', v'⟩ := kv'
      by_cases hk : k' = k
      · simp only [insertOpt, hk, if_true, List.mem_cons] at h
        rcases h with rfl | hm
        · exact Or.inl rfl
        · exact Or.inr (by simp [hm])
      · simp only [insertOpt, hk, if_false, List.mem_cons] at h
        rcases h with rfl | hm
        · exact Or.inr (by simp)
        · rcases ih hm with h1 | h2
          · exact Or.inl h1
          · exact Or.inr (by simp [h2])

theorem insertOpt_nodup {acc : List (ℕ × List ℕ)} {k : ℕ} {v : List ℕ}
    (h : (acc.map Prod.fst).Nodup) :
    ((insertOpt acc k v).map Prod.fst).Nodup := by
  cases hl : optLookup acc k with
  | none =>
      rw [insertOpt_of_none v hl]
      simp only [List.map_append, List.map_cons, List.map_nil]
      rw [List.nodup_append]
      exact ⟨h, by simp, by simpa using fun hm => optLookup_none_not_mem hl hm⟩
  | some w =>
      rw [insertOpt_fst_of_some v hl]
      exact h

/-- Re-parsing a fully written option stream recovers exactly the
original association list (provided every option fits the 576-byte
buffer starting at index `i`, the keys are valid and pairwise fresh,
and the fuel covers the stream). -/
theorem parseOptsF_writeOpts :
    ∀ (opts : List (ℕ × List ℕ)) (i fuel : ℕ) (acc : List (ℕ × List ℕ)),
    240 ≤ i → i + optsWireLen opts ≤ 575 →
    (∀ kv ∈ opts, kv.1 ≠ 0 ∧ kv.1 ≠ 255 ∧ kv.2.length ≤ 255) →
    (opts.map Prod.fst).Nodup →
    (∀ kv ∈ opts, optLookup acc kv.1 = none) →
    optsWireLen opts + 1 ≤ fuel →
    parseOptsF fuel (writeOpts opts i ++ [255]) acc = acc ++ opts := by
  intro opts
  induction opts with
  | nil =>
      intro i fuel acc _ _ _ _ _ hfuel
      obtain ⟨f, rfl⟩ : ∃ f, fuel = f + 1 := ⟨fuel - 1, by simp [optsWireLen] at hfuel; omega⟩
      simp [writeOpts, parseOptsF]
  | cons kv rest ih =>
      intro i fuel acc hi hfit hkv hnodup hfresh hfuel
      obtain ⟨t, v⟩ := kv
      have hvlen : v.length ≤ 255 := (hkv (t, v) (by simp)).2.2
      have ht0 : t ≠ 0 := (hkv (t, v) (by simp)).1
      have ht255 : t ≠ 255 := (hkv (t, v) (by simp)).2.1
      have hwl : optsWireLen ((t, v) :: rest) = 2 + v.length + optsWireLen rest := rfl
      rw [hwl] at hfit hfuel
      obtain ⟨f, rfl⟩ : ∃ f, fuel = f + 1 := ⟨fuel - 1, by omega⟩
      have hnofit : ¬ 576 ≤ i + 2 + v.length := by omega
      rw [writeOpts, if_neg hnofit]
      have hshape : (t :: v.length % 256 :: (v ++ writeOpts rest (i + 2 + v.length))) ++ [255] =
          t :: v.length % 256 :: (v ++ (writeOpts rest (i + 2 + v.length) ++ [255])) := by
        simp [List.append_assoc]
      rw [hshape, parseOptsF, if_neg ht255, if_neg ht0]
      have hmod : v.length % 256 = v.length := Nat.mod_eq_of_lt (by omega)
      have hlen2 : ¬ (v ++ (writeOpts rest (i + 2 + v.length) ++ [255])).length < v.length % 256 := by
        rw [hmod]
        simp
      rw [if_neg hlen2, hmod]
      rw [List.take_left' rfl, List.drop_left' rfl]
      have hacc_t : optLookup acc t = none := hfresh (t, v) (by simp)
      rw [insertOpt_of_none v hacc_t]
      have hrec := ih (i + 2 + v.length) f (acc ++ [(t, v)])
        (by omega) (by omega)
        (fun kv hm => hkv kv (by simp [hm]))
        (by simpa using hnodup.of_cons)
        (by
          intro kv hm
          rw [optLookup_append_of_none (hfresh kv (by simp [hm]))]
          have hne : t ≠ kv.1 := by
            intro he
            have : t ∈ rest.map Prod.fst := he ▸ List.mem_map_of_mem Prod.fst hm
            simp only [List.map_cons, List.nodup_cons] at hnodup
            exact hnodup.1 this
          simp [optLookup, hne])
        (by omega)
      rw [hrec]
      simp

theorem parseOptsF_cons1 (f opt : ℕ) (acc : List (ℕ × List ℕ)) :
    parseOptsF (f + 1) [opt] acc =
      if opt = 255 then acc else if opt = 0 then parseOptsF f [] acc else acc := rfl

theorem parseOptsF_cons2 (f opt l : ℕ) (rest2 : List ℕ) (acc : List (ℕ × List ℕ)) :
    parseOptsF (f + 1) (opt :: l :: rest2) acc =
      if opt = 255 then acc
      else if opt = 0 then parseOptsF f (l :: rest2) acc
      else if rest2.length < l then acc
      else parseOptsF f (rest2.drop l) (insertOpt acc opt (rest2.take l)) := rfl

/-- The option walk only ever produces valid keys (1..254), values of
at most 255 bytes, and pairwise distinct keys. -/
theorem parseOptsF_wf :
    ∀ (fuel : ℕ) (rem : List ℕ) (acc : List (ℕ × List ℕ)),
    (∀ x ∈ rem, x < 256) →
    (acc.map Prod.fst).Nodup →
    (∀ kv ∈ acc, kv.1 ≠ 0 ∧ kv.1 ≠ 255 ∧ kv.2.length ≤ 255) →
    ((parseOptsF fuel rem acc).map Prod.fst).Nodup ∧
      ∀ kv ∈ parseOptsF fuel rem acc, kv.1 ≠ 0 ∧ kv.1 ≠ 255 ∧ kv.2.length ≤ 255 := by
  intro fuel
  induction fuel with
  | zero => intro rem acc _ h1 h2; exact ⟨h1, h2⟩
  | succ f ih =>
      intro rem acc hb h1 h2
      rcases rem with - | ⟨opt, rest⟩
      · exact ⟨h1, h2⟩
      rcases rest with - | ⟨l, rest2⟩
      · rw [parseOptsF_cons1]
        by_cases h255 : opt = 255
        · rw [if_pos h255]; exact ⟨h1, h2⟩
        rw [if_neg h255]
        by_cases h0 : opt = 0
        · rw [if_pos h0]; exact ih [] acc (by simp) h1 h2
        · rw [if_neg h0]; exact ⟨h1, h2⟩
      rw [parseOptsF_cons2]
      by_cases h255 : opt = 255
      · rw [if_pos h255]; exact ⟨h1, h2⟩
      rw [if_neg h255]
      by_cases h0 : opt = 0
      · rw [if_pos h0]
        exact ih (l :: rest2) acc (fun x hx => hb x (by simp [List.mem_cons] at hx ⊢; tauto)) h1 h2
      rw [if_neg h0]
      by_cases hl : rest2.length < l
      · rw [if_pos hl]; exact ⟨h1, h2⟩
      rw [if_neg hl]
      refine ih (rest2.drop l) (insertOpt acc opt (rest2.take l))
        (fun x hx => hb x (by
          have := List.drop_subset l rest2 hx
          simp [this]))
        (insertOpt_nodup h1) ?_
      intro kv hm
      rcases mem_insertOpt hm with rfl | hmem
      · refine ⟨h0, h255, ?_⟩
        have hlb : l < 256 := hb l (by simp)
        simp only [List.length_take]
        omega
      · exact h2 kv hmem

/-- Every packet decoded from byte-valued input satisfies the shape
invariants `WFPacket`. -/
theorem parsePacket_wf {data : List ℕ} {p : Packet}
    (hb : ∀ x ∈ data, x < 256) (hp : parsePacket data = some p) : WFPacket p := by
  rw [parsePacket] at hp
  by_cases h240 : data.length < 240
  · rw [if_pos h240] at hp
    exact absurd hp (by simp)
  rw [if_neg h240] at hp
  have hp' := Option.some.inj hp
  subst hp'
  have hbyte := getD_lt_of_all hb
  have hopts :
      ((if 240 < data.length ∧ data.getD 236 0 = 99 ∧ data.getD 237 0 = 130 ∧
          data.getD 238 0 = 83 ∧ data.getD 239 0 = 99
        then parseOptsF data.length (data.drop 240) [] else []).map Prod.fst).Nodup ∧
      ∀ kv ∈ (if 240 < data.length ∧ data.getD 236 0 = 99 ∧ data.getD 237 0 = 130 ∧
          data.getD 238 0 = 83 ∧ data.getD 239 0 = 99
        then parseOptsF data.length (data.drop 240) [] else []),
        kv.1 ≠ 0 ∧ kv.1 ≠ 255 ∧ kv.2.length ≤ 255 := by
    split
    · exact parseOptsF_wf data.length (data.drop 240) []
        (fun x hx => hb x (List.drop_subset 240 data hx)) (by simp) (by simp)
    · simp
  refine ⟨?_, ?_, ?_, ?_, ?_, ?_, ?_, ?_, ?_, ?_, hopts.1, hopts.2⟩
  · show u32at data 4 < 4294967296
    have h4 := hbyte 4
    have h5 := hbyte (4 + 1)
    have h6 := hbyte (4 + 2)
    have h7 := hbyte (4 + 3)
    unfold u32at
    omega
  · show u16at data 8 < 65536
    have h8 := hbyte 8
    have h9 := hbyte (8 + 1)
    unfold u16at
    omega
  · show u16at data 10 < 65536
    have h10 := hbyte 10
    have h11 := hbyte (10 + 1)
    unfold u16at
    omega
  · show ((data.drop 12).take 4).length = 4
    simp
    omega
  · show ((data.drop 16).take 4).length = 4
    simp
    omega
  · show ((data.drop 20).take 4).length = 4
    simp
    omega
  · show ((data.drop 24).take 4).length = 4
    simp
    omega
  · show ((data.drop 28).take 6).length = 6
    simp
    omega
  · show ((data.drop 44).take 64).length = 64
    simp
    omega
  · show ((data.drop 108).take 128).length = 128
    simp
    omega

/-- Length of the options actually written when everything fits. -/
theorem writeOpts_length_eq :
    ∀ (opts : List (ℕ × List ℕ)) (i : ℕ), i + optsWireLen opts ≤ 575 →
    (writeOpts opts i).length = optsWireLen opts := by
  intro opts
  induction opts with
  | nil => intro i _; rfl
  | cons kv rest ih =>
      intro i hfit
      obtain ⟨t, v⟩ := kv
      have hwl : optsWireLen ((t, v) :: rest) = 2 + v.length + optsWireLen rest := rfl
      rw [hwl] at hfit
      rw [writeOpts, if_neg (by omega), hwl]
      simp only [List.length_cons, List.length_append]
      rw [ih (i + 2 + v.length) (by omega)]
      omega

/-- Decoding the encoder's output recovers the packet exactly, for
every packet with the parser's shape invariants whose options fit the
576-byte encode buffer. -/
theorem serialize_parse_of_wf {p : Packet} (hwf : WFPacket p)
    (hfit : optsWireLen p.options ≤ 335) :
    parsePacket (serializePacket p) = some p := by
  obtain ⟨hxid, hsecs, hflags, hci, hyi, hsi, hgi, hch, hsn, hfl, hnodup, hkv⟩ := hwf
  have hser : serializePacket p =
      [p.op, p.htype, p.hlen, p.hops] ++ (u32bytes p.xid ++ (u16bytes p.secs ++ (u16bytes p.flags ++ (padTo 4 (ipTo4 p.ciaddr) ++ (padTo 4 p.yiaddr ++ (padTo 4 p.siaddr ++ (padTo 4 (ipTo4 p.giaddr) ++ (padTo 6 p.chaddr ++ (List.replicate 10 0 ++ (padTo 64 p.sname ++ (padTo 128 p.file ++ ([99, 130, 83, 99] ++ (writeOpts p.options 240 ++ ([255])))))))))))))) := by
    simp only [serializePacket, fixed240, List.append_assoc]
  have d12 : (serializePacket p).drop 12 =
      padTo 4 (ipTo4 p.ciaddr) ++ (padTo 4 p.yiaddr ++ (padTo 4 p.siaddr ++ (padTo 4 (ipTo4 p.giaddr) ++ (padTo 6 p.chaddr ++ (List.replicate 10 0 ++ (padTo 64 p.sname ++ (padTo 128 p.file ++ ([99, 130, 83, 99] ++ (writeOpts p.options 240 ++ ([255])))))))))) := by
    rw [hser]
    rfl
  have d16 : (serializePacket p).drop 16 =
      padTo 4 p.yiaddr ++ (padTo 4 p.siaddr ++ (padTo 4 (ipTo4 p.giaddr) ++ (padTo 6 p.chaddr ++ (List.replicate 10 0 ++ (padTo 64 p.sname ++ (padTo 128 p.file ++ ([99, 130, 83, 99] ++ (writeOpts p.options 240 ++ ([255]))))))))) :=
    drop_chain d12 (padTo_length 4 (ipTo4 p.ciaddr))
  have d20 : (serializePacket p).drop 20 =
      padTo 4 p.siaddr ++ (padTo 4 (ipTo4 p.giaddr) ++ (padTo 6 p.chaddr ++ (List.replicate 10 0 ++ (padTo 64 p.sname ++ (padTo 128 p.file ++ ([99, 130, 83, 99] ++ (writeOpts p.options 240 ++ ([255])))))))) :=
    drop_chain d16 (padTo_length 4 p.yiaddr)
  have d24 : (serializePacket p).drop 24 =
      padTo 4 (ipTo4 p.giaddr) ++ (padTo 6 p.chaddr ++ (List.replicate 10 0 ++ (padTo 64 p.sname ++ (padTo 128 p.file ++ ([99, 130, 83, 99] ++ (writeOpts p.options 240 ++ ([255]))))))) :=
    drop_chain d20 (padTo_length 4 p.siaddr)
  have d28 : (serializePacket p).drop 28 =
      padTo 6 p.chaddr ++ (List.replicate 10 0 ++ (padTo 64 p.sname ++ (padTo 128 p.file ++ ([99, 130, 83, 99] ++ (writeOpts p.options 240 ++ ([255])))))) :=
    drop_chain d24 (padTo_length 4 (ipTo4 p.giaddr))
  have d34 : (serializePacket p).drop 34 =
      List.replicate 10 0 ++ (padTo 64 p.sname ++ (padTo 128 p.file ++ ([99, 130, 83, 99] ++ (writeOpts p.options 240 ++ ([255]))))) :=
    drop_chain d28 (padTo_length 6 p.chaddr)
  have d44 : (serializePacket p).drop 44 =
      padTo 64 p.sname ++ (padTo 128 p.file ++ ([99, 130, 83, 99] ++ (writeOpts p.options 240 ++ ([255])))) :=
    drop_chain d34 (by simp)
  have d108 : (serializePacket p).drop 108 =
      padTo 128 p.file ++ ([99, 130, 83, 99] ++ (writeOpts p.options 240 ++ ([255]))) :=
    drop_chain d44 (padTo_length 64 p.sname)
  have d236 : (serializePacket p).drop 236 =
      [99, 130, 83, 99] ++ (writeOpts p.options 240 ++ ([255])) :=
    drop_chain d108 (padTo_length 128 p.file)
  have d240 : (serializePacket p).drop 240 =
      writeOpts p.options 240 ++ ([255]) :=
    drop_chain d236 (by simp)
  have hop : (serializePacket p).getD 0 0 = p.op := rfl
  have hhtype : (serializePacket p).getD 1 0 = p.htype := rfl
  have hhlen : (serializePacket p).getD 2 0 = p.hlen := rfl
  have hhops : (serializePacket p).getD 3 0 = p.hops := rfl
  have hxid2 : u32at (serializePacket p) 4 = p.xid := by
    have e : u32at (serializePacket p) 4 =
        ((p.xid / 16777216 % 256 * 256 + p.xid / 65536 % 256) * 256 +
          p.xid / 256 % 256) * 256 + p.xid % 256 := rfl
    rw [e]
    omega
  have hsecs2 : u16at (serializePacket p) 8 = p.secs := by
    have e : u16at (serializePacket p) 8 = p.secs / 256 % 256 * 256 + p.secs % 256 := rfl
    rw [e]
    omega
  have hflags2 : u16at (serializePacket p) 10 = p.flags := by
    have e : u16at (serializePacket p) 10 = p.flags / 256 % 256 * 256 + p.flags % 256 := rfl
    rw [e]
    omega
  have hci2 : ((serializePacket p).drop 12).take 4 = p.ciaddr := by
    rw [d12, List.take_left' (padTo_length 4 (ipTo4 p.ciaddr)), ipTo4_len4 hci, padTo_self hci]
  have hyi2 : ((serializePacket p).drop 16).take 4 = p.yiaddr := by
    rw [d16, List.take_left' (padTo_length 4 p.yiaddr), padTo_self hyi]
  have hsi2 : ((serializePacket p).drop 20).take 4 = p.siaddr := by
    rw [d20, List.take_left' (padTo_length 4 p.siaddr), padTo_self hsi]
  have hgi2 : ((serializePacket p).drop 24).take 4 = p.giaddr := by
    rw [d24, List.take_left' (padTo_length 4 (ipTo4 p.giaddr)), ipTo4_len4 hgi, padTo_self hgi]
  have hch2 : ((serializePacket p).drop 28).take 6 = p.chaddr := by
    rw [d28, List.take_left' (padTo_length 6 p.chaddr), padTo_self hch]
  have hsn2 : ((serializePacket p).drop 44).take 64 = p.sname := by
    rw [d44, List.take_left' (padTo_length 64 p.sname), padTo_self hsn]
  have hfl2 : ((serializePacket p).drop 108).take 128 = p.file := by
    rw [d108, List.take_left' (padTo_length 128 p.file), padTo_self hfl]
  have c236 : (serializePacket p).getD 236 0 = 99 := getD_at d236 0
  have c237 : (serializePacket p).getD 237 0 = 130 := getD_at d236 1
  have c238 : (serializePacket p).getD 238 0 = 83 := getD_at d236 2
  have c239 : (serializePacket p).getD 239 0 = 99 := getD_at d236 3
  have hf240 : (fixed240 p).length = 240 := by
    simp [fixed240, padTo_length, u32bytes, u16bytes]
  have hlenser : (serializePacket p).length = 240 + ((writeOpts p.options 240).length + 1) := by
    simp [serializePacket, hf240]
  have hwlen : (writeOpts p.options 240).length = optsWireLen p.options :=
    writeOpts_length_eq p.options 240 (by omega)
  have hopts : parseOptsF (serializePacket p).length ((serializePacket p).drop 240) [] =
      p.options := by
    rw [d240]
    exact parseOptsF_writeOpts p.options 240 _ [] (le_refl 240) (by omega) hkv hnodup
      (fun kv _ => rfl) (by omega)
  rw [parsePacket, if_neg (by omega)]
  refine congrArg some ?_
  rw [if_pos ⟨by omega, c236, c237, c238, c239⟩]
  obtain ⟨pop, phtype, phlen, phops, pxid, psecs, pflags, pci, pyi, psi, pgi, pch, psn, pfl, popts⟩ := p
  simp only [Packet.mk.injEq]
  exact ⟨hop, hhtype, hhlen, hhops, hxid2, hsecs2, hflags2, hci2, hyi2, hsi2, hgi2,
    hch2, hsn2, hfl2, hopts⟩


/-- C4: for every well-formed packet — at least 240 bytes of
byte-valued input that decodes to `p` — whose decoded options fit the
576-byte encode buffer (`optsWireLen ≤ 335 = 576 − 240 − 1`),
re-encoding and decoding again reproduces `p` exactly: all fixed
header fields and the complete option map (exact equality of the
association list, which subsumes the order-independent comparison). -/
theorem dhcp_roundtrip (data : List ℕ) (p : Packet)
    (hb : ∀ x ∈ data, x < 256)
    (hp : parsePacket data = some p)
    (hfit : optsWireLen p.options ≤ 335) :
    parsePacket (serializePacket p) = some p :=
  serialize_parse_of_wf (parsePacket_wf hb hp) hfit

/-- C4 witness at the concrete datagram `data244`. -/
theorem dhcp_roundtrip_witness :
    parsePacket data244 = some pc244 ∧
    parsePacket (serializePacket pc244) = some pc244 :=
  ⟨by decide, dhcp_roundtrip data244 pc244 (by decide) (by decide) (by decide)⟩

/-! ## C9 — encoder overflow handling -/

/-- C9 (code_bug evidence): encoding a packet whose options overflow
the 576-byte buffer neither fails nor reports anything — the output is
byte-for-byte identical to the encoding of the same packet with *no*
options (the loop `break` silently discards the oversized option and
everything after it), and decoding the output yields an empty option
map.  The claim (and the spec) requires an explicit, reported
condition instead of this silent omission. -/
theorem serialize_overflow_silent :
    serializePacket pBig = serializePacket { pBig with options := [] } ∧
    optsWireLen pBig.options = 402 ∧
    (parsePacket (serializePacket pBig)).map Packet.options = some [] := by
  refine ⟨?_, by decide, by decide⟩
  simp only [serializePacket, fixed240]
  rfl

end GoPxe
